import Mathlib

/-!
A shallow embedding of the `ad-hoc-iter` Rust crate and proofs about it.

The crate has two components:

* `src/lib.rs` — the `iter!` macro, which expands to a bespoke fixed-size
  owning iterator type `Arr<T>([MaybeUninit<T>; N], usize)`.  The first field
  is the backing buffer of `N` slots, the second field is the cursor: slots
  `[0, cursor)` have been consumed (moved out, hence uninitialised), slots
  `[cursor, N)` still hold live values.  We model a `MaybeUninit<T>` slot as
  an `Option α` (`Option.some v` = initialised with `v`, `Option.none` =
  uninitialised), and the tuple struct's fields `self.0` / `self.1` as
  `buf` / `cursor`.

* `src/maybe.rs` — `MaybeMany<T, U>` (variants `None`, `One(T)`, `Many(U)`),
  its iterator `MaybeManyIter<T, U>` (variants `None`, `One(std::iter::Once<T>)`,
  `Many(std::iter::Fuse<U>)`), and their operations.  `std::iter::Once<T>`
  is modelled by its backing `Option α`; `std::iter::Fuse<U>` is modelled by
  `Option σ` over the wrapped iterator's state (`Option.none` once the
  underlying iterator has reported exhaustion).  A Rust `Iterator` with state
  type `σ` is modelled by a step function `σ → Option α × σ` (the result of
  `next()` together with the mutated state).
-/

namespace AdHocIter

/-- One step of the canonical list-backed iterator (models `next()` of the
iterators of `Vec<T>`, arrays and slices-by-value used by the crate's tests
and doc examples): yield the head and keep the tail. -/
def listNext {α : Type} : List α → Option α × List α
  | [] => (Option.none, [])
  | x :: xs => (Option.some x, xs)

/-- The `Arr<T>` type generated by the `iter!` macro:
`struct Arr<T>([MaybeUninit<T>; N], usize)`.  `buf` is field `.0` (each slot
an `Option α` standing for `MaybeUninit<T>`), `cursor` is field `.1`. -/
structure Arr (α : Type) where
  buf : List (Option α)
  cursor : Nat

/-- The expansion's final expression `Arr([MaybeUninit::new(v1), ...], 0)`:
a fully initialised buffer and cursor `0`. -/
def Arr.mkIter {α : Type} (vals : List α) : Arr α :=
  ⟨vals.map Option.some, 0⟩

/-- Models `Iterator::next` for `Arr<T>` (src/lib.rs lines 130-142):
`if self.1 >= self.0.len() { None } else { let one = replace(&mut self.0[self.1],
MaybeUninit::uninit()).assume_init(); self.1 += 1; Some(one) }`.
We phrase the branch as `cursor < len` (the negation of the source's
`cursor >= len` guard) so the in-bounds proof is available; the yielded value
is the old slot content, the slot is overwritten with `uninit` (`Option.none`)
and the cursor advances. -/
def Arr.next {α : Type} (a : Arr α) : Option α × Arr α :=
  if h : a.cursor < a.buf.length then
    (a.buf.get ⟨a.cursor, h⟩, ⟨a.buf.set a.cursor Option.none, a.cursor + 1⟩)
  else
    (Option.none, a)

/-- Models `Arr::len` (src/lib.rs lines 85-88) returns the constant `Self::LEN`,
the compile-time slot count.  The buffer's length equals `LEN` in every
reachable state (`List.set` preserves length), so we read it off the buffer. -/
def Arr.len {α : Type} (a : Arr α) : Nat :=
  a.buf.length

/-- Models `Iterator::size_hint` for `Arr<T>` (src/lib.rs lines 144-147):
`(Self::LEN, Some(Self::LEN))`, independent of the cursor. -/
def Arr.size_hint {α : Type} (a : Arr α) : Nat × Option Nat :=
  (a.buf.length, Option.some a.buf.length)

/-- Models `Arr::rest` (src/lib.rs lines 104-110): the slice `&self.0[self.1..]`
of not-yet-consumed slots (which the source then reinterprets as `&[T]`;
we keep the slots so that "every element of the view is initialised" is a
provable statement rather than an assumption). -/
def Arr.rest {α : Type} (a : Arr α) : List (Option α) :=
  a.buf.drop a.cursor

/-- Models `Arr::consumed` (src/lib.rs lines 122-125): returns `self.1`. -/
def Arr.consumed {α : Type} (a : Arr α) : Nat :=
  a.cursor

/-- The `Drop` impl for `Arr<T>` (src/lib.rs lines 152-163): the loop
`for idx in self.1..self.0.len()` finalizes (`assume_init`, running the
destructor of) the content of each slot of the suffix `[cursor, len)`, in
order, each visited once.  `dropFinalized` is the list of slot contents the
loop finalizes.  The `needs_drop::<T>()` guard in the source only skips the
loop when `T`'s destructor is a no-op, which is observationally identical. -/
def Arr.dropFinalized {α : Type} (a : Arr α) : List (Option α) :=
  a.buf.drop a.cursor

/-- The state of an `Arr` after `k` successive calls to `next()`
(each call discards the yielded value and keeps the mutated receiver). -/
def Arr.advance {α : Type} : Nat → Arr α → Arr α
  | 0, a => a
  | k + 1, a => Arr.advance k a.next.snd

/-- The results of `k` successive calls to `next()` on an `Arr`, in order. -/
def Arr.outputs {α : Type} : Nat → Arr α → List (Option α)
  | 0, _ => []
  | k + 1, a => a.next.fst :: Arr.outputs k a.next.snd

/-- The invariant the `iter!` expansion maintains: every slot at or beyond
the cursor is initialised. -/
def Arr.WF {α : Type} (a : Arr α) : Prop :=
  ∀ (i : Nat) (h : i < a.buf.length), a.cursor ≤ i → (a.buf.get ⟨i, h⟩).isSome

/-- Helper: the buffer contents after `k` consumptions from a fresh buffer
over `vs`: the first `k` slots are uninitialised, the rest still hold their
original values. -/
def bufAfter {α : Type} : Nat → List α → List (Option α)
  | 0, vs => vs.map Option.some
  | _ + 1, [] => []
  | k + 1, _ :: vs => Option.none :: bufAfter k vs

theorem bufAfter_length {α : Type} :
    ∀ (k : Nat) (vs : List α), k ≤ vs.length → (bufAfter k vs).length = vs.length
  | 0, vs, _ => by simp [bufAfter]
  | k + 1, [], h => by simp at h
  | k + 1, v :: vs, h => by
    simp [bufAfter, bufAfter_length k vs (Nat.le_of_succ_le_succ h)]

theorem bufAfter_get {α : Type} :
    ∀ (k : Nat) (vs : List α) (h : k < vs.length) (h2 : k < (bufAfter k vs).length),
      (bufAfter k vs).get ⟨k, h2⟩ = Option.some (vs.get ⟨k, h⟩)
  | 0, [], h, _ => by simp at h
  | 0, v :: vs, _, _ => by simp [bufAfter]
  | k + 1, [], h, _ => by simp at h
  | k + 1, v :: vs, h, h2 => by
    exact bufAfter_get k vs (Nat.lt_of_succ_lt_succ h) (Nat.lt_of_succ_lt_succ h2)

theorem bufAfter_set {α : Type} :
    ∀ (k : Nat) (vs : List α), (bufAfter k vs).set k Option.none = bufAfter (k + 1) vs
  | 0, [] => by simp [bufAfter]
  | 0, v :: vs => by simp [bufAfter]
  | k + 1, [] => by simp [bufAfter]
  | k + 1, v :: vs => by
    simp [bufAfter, bufAfter_set k vs]

theorem bufAfter_drop {α : Type} :
    ∀ (k : Nat) (vs : List α), (bufAfter k vs).drop k = (vs.drop k).map Option.some
  | 0, vs => by simp [bufAfter]
  | k + 1, [] => by simp [bufAfter]
  | k + 1, v :: vs => by simp [bufAfter, bufAfter_drop k vs]

theorem bufAfter_take {α : Type} :
    ∀ (k : Nat) (vs : List α), k ≤ vs.length →
      (bufAfter k vs).take k = List.replicate k Option.none
  | 0, vs, _ => by simp
  | k + 1, [], h => by simp at h
  | k + 1, v :: vs, h => by
    simp [bufAfter, List.replicate_succ, bufAfter_take k vs (Nat.le_of_succ_le_succ h)]

theorem advance_succ {α : Type} :
    ∀ (k : Nat) (a : Arr α), Arr.advance (k + 1) a = (Arr.advance k a).next.snd
  | 0, a => rfl
  | k + 1, a => by
    show Arr.advance (k + 1) a.next.snd = _
    rw [advance_succ k a.next.snd]
    rfl

theorem next_bufAfter_lt {α : Type} (k : Nat) (vals : List α) (h : k < vals.length) :
    Arr.next ⟨bufAfter k vals, k⟩ =
      (Option.some (vals.get ⟨k, h⟩), ⟨bufAfter (k + 1) vals, k + 1⟩) := by
  have hlen : (bufAfter k vals).length = vals.length :=
    bufAfter_length k vals (Nat.le_of_lt h)
  have hlt : k < (bufAfter k vals).length := by rw [hlen]; exact h
  unfold Arr.next
  rw [dif_pos hlt]
  rw [bufAfter_get k vals h hlt, bufAfter_set k vals]

theorem next_bufAfter_exhausted {α : Type} (vals : List α) :
    Arr.next ⟨bufAfter vals.length vals, vals.length⟩ =
      (Option.none, ⟨bufAfter vals.length vals, vals.length⟩) := by
  have hlen : (bufAfter vals.length vals).length = vals.length :=
    bufAfter_length vals.length vals (Nat.le_refl _)
  unfold Arr.next
  rw [dif_neg]
  simp [hlen]

theorem advance_mkIter {α : Type} :
    ∀ (k : Nat) (vals : List α), k ≤ vals.length →
      Arr.advance k (Arr.mkIter vals) = ⟨bufAfter k vals, k⟩
  | 0, vals, _ => rfl
  | k + 1, vals, h => by
    have hk : k < vals.length := Nat.lt_of_succ_le h
    rw [advance_succ, advance_mkIter k vals (Nat.le_of_lt hk),
      next_bufAfter_lt k vals hk]

theorem outputs_bufAfter {α : Type} :
    ∀ (m k : Nat) (vals : List α), k + m ≤ vals.length →
      Arr.outputs m ⟨bufAfter k vals, k⟩ = ((vals.drop k).take m).map Option.some
  | 0, k, vals, _ => by simp [Arr.outputs]
  | m + 1, k, vals, h => by
    have hk : k < vals.length := by omega
    show (Arr.next ⟨bufAfter k vals, k⟩).fst ::
        Arr.outputs m (Arr.next ⟨bufAfter k vals, k⟩).snd = _
    rw [next_bufAfter_lt k vals hk]
    rw [outputs_bufAfter m (k + 1) vals (by omega)]
    rw [List.drop_eq_getElem_cons hk, List.take_succ_cons]
    simp [List.get_eq_getElem]

/-- Models `std::iter::Empty<T>`: the canonical collection/iterator that yields
nothing.  It carries no data (only `PhantomData` in the source), so we model
it as a fieldless structure; its iterator yields nothing (see `emptyNext`). -/
structure EmptyIter where

/-- Models `Iterator::next` of `std::iter::Empty<T>`: always `None`. -/
def emptyNext {α : Type} (e : EmptyIter) : Option α × EmptyIter :=
  (Option.none, e)

/-- Models `MaybeMany<T, U>` (src/maybe.rs lines 8-15), the zero/one/many tagged
union: variants `None`, `One(T)`, `Many(U)` where `U` is a collection of
`T`.  The `U: IntoIterator<Item = T>` bound has no computational content in
the variants themselves, so the Lean type is parametrised by the collection
type `γ` alone. -/
inductive MaybeMany (α γ : Type) where
  | None : MaybeMany α γ
  | One : α → MaybeMany α γ
  | Many : γ → MaybeMany α γ

/-- Models `MaybeMany::one` (src/maybe.rs lines 20-23), on the
`MaybeMany<T, std::iter::Empty<T>>` specialization. -/
def MaybeMany.one {α : Type} (value : α) : MaybeMany α EmptyIter :=
  MaybeMany.One value

/-- Models `MaybeMany::map_single_into_many` (src/maybe.rs lines 28-36), defined on
the `MaybeMany<T, std::iter::Empty<T>>` specialization:
`One(one) => Many(trans(one)); _ => None` — the wildcard arm covers both
`None` and `Many(_)`.  Result type `MaybeMany<V, W>`: `β` is the new item
type `V`, `δ` the new collection type `W`. -/
def MaybeMany.map_single_into_many {α β δ : Type}
    (self : MaybeMany α EmptyIter) (trans : α → δ) : MaybeMany β δ :=
  match self with
  | .One one => MaybeMany.Many (trans one)
  | _ => MaybeMany.None

/-- Models `MaybeMany::map_none` (src/maybe.rs lines 38-47), defined on the
`MaybeMany<T, std::iter::Empty<T>>` specialization:
`None | Many(_) => None; One(o) => One(o)`. -/
def MaybeMany.map_none {α δ : Type} (self : MaybeMany α EmptyIter) :
    MaybeMany α δ :=
  match self with
  | .None | .Many _ => MaybeMany.None
  | .One o => MaybeMany.One o

/-- Models `MaybeMany::into_many` (src/maybe.rs lines 63-66):
`MaybeMany::Many(self)` — the collection of the result is `Self`. -/
def MaybeMany.into_many {α γ : Type} (self : MaybeMany α γ) :
    MaybeMany α (MaybeMany α γ) :=
  MaybeMany.Many self

/-- Models `MaybeMany::map_into_many` (src/maybe.rs lines 71-80):
`None => None; One(one) => Many(trans(one)); Many(many) => Many(W::from(many))`.
`trans` is `F: FnOnce(T) -> W` and `conv` is the `W: From<U>` conversion;
`β` is the new item type `V`. -/
def MaybeMany.map_into_many {α β γ δ : Type} (self : MaybeMany α γ)
    (trans : α → δ) (conv : γ → δ) : MaybeMany β δ :=
  match self with
  | .None => MaybeMany.None
  | .One one => MaybeMany.Many (trans one)
  | .Many many => MaybeMany.Many (conv many)

/-- Models `MaybeMany::size_hint` (src/maybe.rs lines 102-109):
`None => Some(0); One(_) => Some(1); Many(_) => None`. -/
def MaybeMany.size_hint {α γ : Type} : MaybeMany α γ → Option Nat
  | .None => Option.some 0
  | .One _ => Option.some 1
  | .Many _ => Option.none

/-- Models `MaybeMany::is_none` (src/maybe.rs lines 111-118). -/
def MaybeMany.is_none {α γ : Type} : MaybeMany α γ → Bool
  | .None => true
  | _ => false

/-- Models `MaybeMany::is_single` (src/maybe.rs lines 120-127). -/
def MaybeMany.is_single {α γ : Type} : MaybeMany α γ → Bool
  | .One _ => true
  | _ => false

/-- Models `MaybeMany::is_many` (src/maybe.rs lines 129-136). -/
def MaybeMany.is_many {α γ : Type} : MaybeMany α γ → Bool
  | .Many _ => true
  | _ => false

/-- Models `MaybeMany::map_many` (src/maybe.rs lines 138-147):
`One(t) => One(t); Many(m) => Many(fun(m)); None => None`. -/
def MaybeMany.map_many {α γ δ : Type} (self : MaybeMany α γ) (f : γ → δ) :
    MaybeMany α δ :=
  match self with
  | .One t => MaybeMany.One t
  | .Many m => MaybeMany.Many (f m)
  | .None => MaybeMany.None

/-- Models `MaybeMany::take` (src/maybe.rs lines 172-176):
`std::mem::replace(self, Self::None)`.  The receiver is `&mut self`; we
return the pair (returned previous value, state left in the receiver). -/
def MaybeMany.take {α γ : Type} (self : MaybeMany α γ) :
    MaybeMany α γ × MaybeMany α γ :=
  (self, MaybeMany.None)

/-- Models `MaybeManyIter<T, U>` (src/maybe.rs lines 180-187):
`None`, `One(std::iter::Once<T>)`, `Many(std::iter::Fuse<U>)`.
`std::iter::Once<T>` is backed by an `Option<T>` (its remaining element);
`std::iter::Fuse<U>` is backed by an `Option<U>` which becomes `None` once
the wrapped iterator has reported exhaustion.  `σ` is the state type of the
wrapped iterator `U`. -/
inductive MaybeManyIter (α σ : Type) where
  | None : MaybeManyIter α σ
  | One : Option α → MaybeManyIter α σ
  | Many : Option σ → MaybeManyIter α σ

/-- Models `Iterator::next` for `MaybeManyIter` (src/maybe.rs lines 193-200):
`None => None; One(one) => one.next(); Many(many) => many.next()`.
`Once::next` takes the backing option; `Fuse::next` polls the wrapped
iterator (step function `step`) unless already flagged exhausted, and sets
the flag when the wrapped iterator returns `None`. -/
def MaybeManyIter.next {α σ : Type} (step : σ → Option α × σ) :
    MaybeManyIter α σ → Option α × MaybeManyIter α σ
  | .None => (Option.none, MaybeManyIter.None)
  | .One rem => (rem, MaybeManyIter.One Option.none)
  | .Many Option.none => (Option.none, MaybeManyIter.Many Option.none)
  | .Many (Option.some s) =>
    match step s with
    | (Option.some x, s') => (Option.some x, MaybeManyIter.Many (Option.some s'))
    | (Option.none, _) => (Option.none, MaybeManyIter.Many Option.none)

/-- Models `Iterator::size_hint` for `MaybeManyIter` (src/maybe.rs lines 202-208):
`None => (0, Some(0)); One(_) => (1, Some(1)); Many(many) => many.size_hint()`.
`Fuse::size_hint` is `(0, Some(0))` once exhausted and otherwise delegates
to the wrapped iterator's `size_hint` (the `sub` parameter). -/
def MaybeManyIter.size_hint {α σ : Type} (sub : σ → Nat × Option Nat) :
    MaybeManyIter α σ → Nat × Option Nat
  | .None => (0, Option.some 0)
  | .One _ => (1, Option.some 1)
  | .Many Option.none => (0, Option.some 0)
  | .Many (Option.some s) => sub s

/-- The results of `m` successive calls to `next()` on a `MaybeManyIter`,
in order. -/
def MaybeManyIter.outputs {α σ : Type} (step : σ → Option α × σ) :
    Nat → MaybeManyIter α σ → List (Option α)
  | 0, _ => []
  | m + 1, st =>
    (MaybeManyIter.next step st).fst ::
      MaybeManyIter.outputs step m (MaybeManyIter.next step st).snd

/-- Models `impl IntoIterator for MaybeMany` (src/maybe.rs lines 214-227):
`None => MaybeManyIter::None; One(one) => MaybeManyIter::One(iter::once(one));
Many(many) => MaybeManyIter::Many(many.into_iter().fuse())`.
`start` is the collection's `IntoIterator::into_iter` (initial iterator
state); a fresh `Fuse` wraps it with the exhausted-flag unset. -/
def MaybeMany.into_iter {α γ σ : Type} (start : γ → σ) :
    MaybeMany α γ → MaybeManyIter α σ
  | .None => MaybeManyIter.None
  | .One one => MaybeManyIter.One (Option.some one)
  | .Many many => MaybeManyIter.Many (Option.some (start many))

/-- Models `std::iter::Chain<A, B>`: field `a` is the not-yet-exhausted first
iterator (`None` once it finished), field `b` the second. -/
structure Chain (σ₁ σ₂ : Type) where
  a : Option σ₁
  b : Option σ₂

/-- Models `Iterator::next` for `std::iter::Chain`: poll the first iterator while
it lasts; on its first `None`, drop it (`a := None`) and poll the second;
when the second returns `None`, drop it too. -/
def Chain.next {α σ₁ σ₂ : Type} (n₁ : σ₁ → Option α × σ₁)
    (n₂ : σ₂ → Option α × σ₂) : Chain σ₁ σ₂ → Option α × Chain σ₁ σ₂
  | ⟨Option.some s₁, b⟩ =>
    match n₁ s₁ with
    | (Option.some x, s₁') => (Option.some x, ⟨Option.some s₁', b⟩)
    | (Option.none, _) =>
      match b with
      | Option.none => (Option.none, ⟨Option.none, Option.none⟩)
      | Option.some s₂ =>
        match n₂ s₂ with
        | (Option.some x, s₂') => (Option.some x, ⟨Option.none, Option.some s₂'⟩)
        | (Option.none, _) => (Option.none, ⟨Option.none, Option.none⟩)
  | ⟨Option.none, Option.some s₂⟩ =>
    match n₂ s₂ with
    | (Option.some x, s₂') => (Option.some x, ⟨Option.none, Option.some s₂'⟩)
    | (Option.none, _) => (Option.none, ⟨Option.none, Option.none⟩)
  | ⟨Option.none, Option.none⟩ => (Option.none, ⟨Option.none, Option.none⟩)

/-- Models `MaybeMany::chain` (src/maybe.rs lines 82-87):
`MaybeMany::Many(self.into_iter().chain(iter.into_iter()))`.
Instantiated at list collections: the receiver's collection is a `List α`
and the chained iterable is a `List α`; `Iterator::chain` builds a `Chain`
with both components present. -/
def MaybeMany.chain {α : Type} (self : MaybeMany α (List α)) (other : List α) :
    MaybeMany α (Chain (MaybeManyIter α (List α)) (List α)) :=
  MaybeMany.Many ⟨Option.some (self.into_iter id), Option.some other⟩

/-- Models `MaybeMany::boxed` (src/maybe.rs lines 90-95):
`MaybeMany::Many(Box::new(self.into_iter()))`, instantiated at list
collections.  The `Box<dyn Iterator>` erases the iterator's type; its state
is the wrapped `MaybeManyIter` itself. -/
def MaybeMany.boxed {α : Type} (self : MaybeMany α (List α)) :
    MaybeMany α (MaybeManyIter α (List α)) :=
  MaybeMany.Many (self.into_iter id)

/-- Abbreviation: the step function of the iterator produced by
`MaybeMany::chain` at list collections (first component: the receiver's own
`MaybeManyIter` over a list; second component: the chained list). -/
def chainStep {α : Type} :
    Chain (MaybeManyIter α (List α)) (List α) →
      Option α × Chain (MaybeManyIter α (List α)) (List α) :=
  Chain.next (MaybeManyIter.next listNext) listNext

/-- The element sequence a `MaybeMany` over a list collection abstractly
holds (the spec's "the receiver's elements, in order"): nothing for `None`,
the single element for `One`, the collection's elements for `Many`. -/
def MaybeMany.elems {α : Type} : MaybeMany α (List α) → List α
  | .None => []
  | .One x => [x]
  | .Many l => l

theorem filterMap_id_map_some {α : Type} :
    ∀ l : List α, (l.map Option.some).filterMap id = l
  | [] => rfl
  | x :: xs => by simp [List.filterMap_cons, filterMap_id_map_some xs]

/-- Claim C1 (evidence of the code bug): for the fixed-size literal iterator
the claim says `size_hint()` reports the exact remaining size `N - k` after
`k` consumptions.  The code's `size_hint` (src/lib.rs lines 144-147) returns
`(Self::LEN, Some(Self::LEN))` unconditionally, so on `iter![1, 2]` after
one `next()` it still reports `(2, Some(2))` instead of `(1, Some(1))`,
violating the exact-size contract the type opts into via
`ExactSizeIterator`. -/
theorem c1_size_hint_ignores_consumption :
    (Arr.advance 1 (Arr.mkIter ([1, 2] : List Nat))).consumed = 1 ∧
    (Arr.advance 1 (Arr.mkIter ([1, 2] : List Nat))).size_hint = (2, Option.some 2) ∧
    (Arr.advance 1 (Arr.mkIter ([1, 2] : List Nat))).size_hint ≠ (2 - 1, Option.some (2 - 1)) := by
  decide

/-- Claim C2: dropping the fixed-size literal iterator after `k ≤ N` calls to
`next()` finalizes exactly the `N - k` not-yet-yielded values — the `Drop`
loop's finalized slots are precisely `Option.some` of the original tail
`vals.drop k`, so each remaining value is finalized exactly once — and never
touches the first `k` slots, which by then hold no value at all
(`List.replicate k Option.none`).  Every one of the `N` original values is
accounted for exactly once between the `k` yielded values and the `N - k`
finalized ones, and on drop after full exhaustion (`k = N`) nothing is
finalized. -/
theorem c2_drop_finalizes_rest_exactly_once {α : Type} (vals : List α) (k : Nat)
    (hk : k ≤ vals.length) :
    Arr.dropFinalized (Arr.advance k (Arr.mkIter vals)) = (vals.drop k).map Option.some ∧
    (Arr.dropFinalized (Arr.advance k (Arr.mkIter vals))).length = vals.length - k ∧
    (Arr.advance k (Arr.mkIter vals)).buf.take k = List.replicate k Option.none ∧
    (Arr.outputs k (Arr.mkIter vals)).filterMap id ++
      (Arr.dropFinalized (Arr.advance k (Arr.mkIter vals))).filterMap id = vals ∧
    Arr.dropFinalized (Arr.advance vals.length (Arr.mkIter vals)) = [] := by
  have hstate := advance_mkIter k vals hk
  have hfin : Arr.dropFinalized (Arr.advance k (Arr.mkIter vals)) =
      (vals.drop k).map Option.some := by
    rw [hstate]
    exact bufAfter_drop k vals
  have hout : Arr.outputs k (Arr.mkIter vals) = (vals.take k).map Option.some := by
    have h0 : Arr.mkIter vals = ⟨bufAfter 0 vals, 0⟩ := rfl
    rw [h0, outputs_bufAfter k 0 vals (by omega)]
    simp
  refine ⟨hfin, ?_, ?_, ?_, ?_⟩
  · rw [hfin]; simp
  · rw [hstate]; exact bufAfter_take k vals hk
  · rw [hfin, hout, filterMap_id_map_some, filterMap_id_map_some]
    exact List.take_append_drop k vals
  · rw [advance_mkIter vals.length vals (Nat.le_refl _)]
    show (bufAfter vals.length vals).drop vals.length = []
    rw [bufAfter_drop]
    simp

/-- Witness for C2 at `vals = [7, 8, 9]`, `k = 1`: after one consumption the
yielded values plus the drop-finalized values are exactly the three original
values, each once. -/
theorem c2_witness :
    (Arr.outputs 1 (Arr.mkIter [7, 8, 9])).filterMap id ++
      (Arr.dropFinalized (Arr.advance 1 (Arr.mkIter [7, 8, 9]))).filterMap id = [7, 8, 9] :=
  (c2_drop_finalizes_rest_exactly_once [7, 8, 9] 1 (by decide)).2.2.2.1

/-- Claim C4: for a fixed-size literal iterator over `vals` (length `N`),
after `k ≤ N` consumptions `next()` yields nothing exactly when the cursor
equals `N`; otherwise it returns the value stored at the cursor slot (the
original `vals[k]`) and advances the cursor by one (the resulting state is
the `(k+1)`-step state); consequently the full sequence of `next()` results
is exactly the `N` constructed values, by move, in their original order. -/
theorem c4_next_yields_in_order {α : Type} (vals : List α) (k : Nat)
    (hk : k ≤ vals.length) :
    ((Arr.advance k (Arr.mkIter vals)).next.fst = Option.none ↔ k = vals.length) ∧
    ((Arr.advance k (Arr.mkIter vals)).consumed = k) ∧
    (∀ h : k < vals.length,
      (Arr.advance k (Arr.mkIter vals)).next =
        (Option.some (vals.get ⟨k, h⟩), Arr.advance (k + 1) (Arr.mkIter vals))) ∧
    Arr.outputs vals.length (Arr.mkIter vals) = vals.map Option.some := by
  have hstate := advance_mkIter k vals hk
  refine ⟨?_, ?_, ?_, ?_⟩
  · rw [hstate]
    by_cases heq : k = vals.length
    · subst heq
      rw [next_bufAfter_exhausted]
      simp
    · have hlt : k < vals.length := Nat.lt_of_le_of_ne hk heq
      rw [next_bufAfter_lt k vals hlt]
      simp [heq]
  · rw [hstate]; rfl
  · intro h
    rw [hstate, next_bufAfter_lt k vals h, advance_mkIter (k + 1) vals (by omega)]
  · have h0 : Arr.mkIter vals = ⟨bufAfter 0 vals, 0⟩ := rfl
    rw [h0, outputs_bufAfter vals.length 0 vals (by omega)]
    simp

/-- Witness for C4 at `vals = [10, 20]`, `k = 1`: the second `next()` yields
`20` and moves to the two-step state. -/
theorem c4_witness :
    (Arr.advance 1 (Arr.mkIter [10, 20])).next =
      (Option.some 20, Arr.advance 2 (Arr.mkIter [10, 20])) :=
  (c4_next_yields_in_order [10, 20] 1 (by decide)).2.2.1 (by decide)

/-- Claim C5: after exactly `k ≤ N` calls to `next()`, the read-only
remaining view `rest()` is `Option.some` of the last `N - k` elements of the
original input (element-wise equal to the original tail), its length — the
remaining count — is `N - k` (equivalently `len() - consumed() = N - k`),
while `len()` still returns `N`. -/
theorem c5_rest_matches_tail {α : Type} (vals : List α) (k : Nat)
    (hk : k ≤ vals.length) :
    (Arr.advance k (Arr.mkIter vals)).rest = (vals.drop k).map Option.some ∧
    (Arr.advance k (Arr.mkIter vals)).rest.length = vals.length - k ∧
    (Arr.advance k (Arr.mkIter vals)).len -
      (Arr.advance k (Arr.mkIter vals)).consumed = vals.length - k ∧
    (Arr.advance k (Arr.mkIter vals)).len = vals.length := by
  have hstate := advance_mkIter k vals hk
  have hrest : (Arr.advance k (Arr.mkIter vals)).rest = (vals.drop k).map Option.some := by
    rw [hstate]
    exact bufAfter_drop k vals
  have hlen : (Arr.advance k (Arr.mkIter vals)).len = vals.length := by
    rw [hstate]
    exact bufAfter_length k vals hk
  refine ⟨hrest, ?_, ?_, hlen⟩
  · rw [hrest]; simp
  · rw [hlen, hstate]; rfl

/-- Witness for C5 at `vals = [5, 6, 7]`, `k = 2`: the remaining view is
exactly the original tail `[7]`. -/
theorem c5_witness :
    (Arr.advance 2 (Arr.mkIter [5, 6, 7])).rest = ([7] : List Nat).map Option.some :=
  (c5_rest_matches_tail [5, 6, 7] 2 (by decide)).1

/-- Claim C9: `take()` returns exactly the pre-call content, unchanged, and
leaves the instance in the `None` state; hence a second consecutive `take()`
returns `None`. -/
theorem c9_take_returns_state_leaves_empty {α γ : Type} (s : MaybeMany α γ) :
    (MaybeMany.take s).fst = s ∧
    (MaybeMany.take s).snd = MaybeMany.None ∧
    (MaybeMany.take ((MaybeMany.take s).snd)).fst = MaybeMany.None :=
  ⟨rfl, rfl, rfl⟩

/-- Claim C10: the iterator derived from a `MaybeMany` reports
`size_hint() = (1, Some(1))` whenever it is in the `One` state, whatever the
backing `Once`'s remaining option is — in particular still after its single
element has been yielded by `next()` (the state stays `One`, now empty), so
the reported exact remaining size never decreases to `0` upon consumption.
(The source also implements `ExactSizeIterator` for `MaybeManyIter` at
src/maybe.rs lines 211-212, making this the exact-size report.) -/
theorem c10_one_size_hint_constant {α σ : Type} (sub : σ → Nat × Option Nat)
    (step : σ → Option α × σ) (rem : Option α) (x : α) :
    MaybeManyIter.size_hint sub (MaybeManyIter.One rem : MaybeManyIter α σ) =
      (1, Option.some 1) ∧
    (MaybeManyIter.next step (MaybeManyIter.One (Option.some x))).fst = Option.some x ∧
    (MaybeManyIter.next step (MaybeManyIter.One (Option.some x))).snd =
      (MaybeManyIter.One Option.none : MaybeManyIter α σ) ∧
    MaybeManyIter.size_hint sub
      ((MaybeManyIter.next step (MaybeManyIter.One (Option.some x))).snd) =
      (1, Option.some 1) :=
  ⟨rfl, rfl, rfl, rfl⟩

theorem mmOutputs_succ {α σ : Type} (step : σ → Option α × σ) (m : Nat)
    (st : MaybeManyIter α σ) :
    MaybeManyIter.outputs step (m + 1) st =
      (MaybeManyIter.next step st).fst ::
        MaybeManyIter.outputs step m (MaybeManyIter.next step st).snd := rfl

theorem outputs_of_fixed {α σ : Type} (step : σ → Option α × σ)
    (st : MaybeManyIter α σ)
    (h : MaybeManyIter.next step st = (Option.none, st)) :
    ∀ m, MaybeManyIter.outputs step m st = List.replicate m Option.none := by
  intro m
  induction m with
  | zero => rfl
  | succ m ih =>
    rw [mmOutputs_succ, h]
    show Option.none :: MaybeManyIter.outputs step m st = _
    rw [ih]
    rfl

theorem next_dead {α σ : Type} (step : σ → Option α × σ) (st : MaybeManyIter α σ)
    (h : (MaybeManyIter.next step st).fst = Option.none) :
    MaybeManyIter.next step (MaybeManyIter.next step st).snd =
      (Option.none, (MaybeManyIter.next step st).snd) := by
  cases st with
  | None => rfl
  | One rem => rfl
  | Many f =>
    cases f with
    | none => rfl
    | some s =>
      rcases hs : step s with ⟨r, s'⟩
      cases r with
      | some x =>
        simp [MaybeManyIter.next, hs] at h
      | none =>
        have h1 : MaybeManyIter.next step (MaybeManyIter.Many (Option.some s)) =
            (Option.none, MaybeManyIter.Many Option.none) := by
          simp [MaybeManyIter.next, hs]
        rw [h1]
        rfl

/-- Claim C6: both derived iterator families are fused.  For the fixed-size
literal iterator (under the expansion's invariant that every slot at or past
the cursor is initialised): once `next()` returns `None` the state is
unchanged and every subsequent call returns `None`.  For the iterator derived
from a `MaybeMany` value, over an arbitrary underlying iterator (arbitrary
step function): once `next()` has returned `None`, every subsequent call
also returns `None`. -/
theorem c6_fused_iterators {α σ : Type} :
    (∀ a : Arr α, a.WF → a.next.fst = Option.none →
      a.next.snd = a ∧ ∀ m, Arr.outputs m a = List.replicate m Option.none) ∧
    (∀ (step : σ → Option α × σ) (st : MaybeManyIter α σ),
      (MaybeManyIter.next step st).fst = Option.none →
      ∀ m, MaybeManyIter.outputs step m (MaybeManyIter.next step st).snd =
        List.replicate m Option.none) := by
  constructor
  · intro a hwf hnone
    have hexh : ¬ a.cursor < a.buf.length := by
      intro hlt
      have hsome := hwf a.cursor hlt (Nat.le_refl _)
      have hfst : a.next.fst = a.buf.get ⟨a.cursor, hlt⟩ := by
        unfold Arr.next
        rw [dif_pos hlt]
      rw [hfst] at hnone
      rw [hnone] at hsome
      simp at hsome
    have hfix : a.next = (Option.none, a) := by
      unfold Arr.next
      rw [dif_neg hexh]
    refine ⟨by rw [hfix], ?_⟩
    intro m
    induction m with
    | zero => rfl
    | succ m ih =>
      show a.next.fst :: Arr.outputs m a.next.snd = _
      rw [hfix]
      show Option.none :: Arr.outputs m a = _
      rw [ih]
      rfl
  · intro step st h m
    exact outputs_of_fixed step (MaybeManyIter.next step st).snd (next_dead step st h) m

/-- Witness for C6: the empty literal iterator (`N = 0`) keeps reporting
`None` (three further calls shown), and a `MaybeMany`-derived iterator whose
single element is already gone keeps reporting `None` after its first
`None`. -/
theorem c6_witness :
    (Arr.mkIter ([] : List Nat)).next.snd = Arr.mkIter ([] : List Nat) ∧
    Arr.outputs 3 (Arr.mkIter ([] : List Nat)) = List.replicate 3 Option.none ∧
    MaybeManyIter.outputs listNext 3
        (MaybeManyIter.next listNext
          (MaybeManyIter.One Option.none : MaybeManyIter Nat (List Nat))).snd =
      List.replicate 3 Option.none := by
  have hwf : (Arr.mkIter ([] : List Nat)).WF := by
    intro i h
    exact absurd h (by simp [Arr.mkIter])
  have H := c6_fused_iterators (α := Nat) (σ := List Nat)
  have h1 := H.1 (Arr.mkIter ([] : List Nat)) hwf (by decide)
  exact ⟨h1.1, h1.2 3, H.2 listNext (MaybeManyIter.One Option.none) (by decide) 3⟩

theorem outputs_many_list {α : Type} :
    ∀ (l : List α) (m : Nat),
      MaybeManyIter.outputs listNext (l.length + m)
        (MaybeManyIter.Many (Option.some l)) =
      l.map Option.some ++ List.replicate m Option.none
  | [], m => by
    simp only [List.length_nil, Nat.zero_add, List.map_nil, List.nil_append]
    cases m with
    | zero => rfl
    | succ m =>
      rw [mmOutputs_succ]
      have h1 : MaybeManyIter.next listNext
          (MaybeManyIter.Many (Option.some ([] : List α))) =
          (Option.none, MaybeManyIter.Many Option.none) := rfl
      rw [h1]
      show Option.none ::
          MaybeManyIter.outputs listNext m (MaybeManyIter.Many Option.none) = _
      rw [outputs_of_fixed listNext (MaybeManyIter.Many Option.none) rfl m]
      rfl
  | x :: xs, m => by
    have harith : (x :: xs).length + m = (xs.length + m) + 1 := by
      simp [List.length_cons]
      omega
    rw [harith, mmOutputs_succ]
    have h1 : MaybeManyIter.next listNext
        (MaybeManyIter.Many (Option.some (x :: xs))) =
        (Option.some x, MaybeManyIter.Many (Option.some xs)) := rfl
    rw [h1]
    show Option.some x ::
        MaybeManyIter.outputs listNext (xs.length + m)
          (MaybeManyIter.Many (Option.some xs)) = _
    rw [outputs_many_list xs m]
    simp

/-- Claim C7: converting a `MaybeMany` into its uniform iterator yields, for
`None`, zero elements (all queries report `None`); for `One x`, exactly `x`
and then nothing; for `Many c` over a list collection, every element of `c`
in its native order and then nothing.  The fuel `m` of extra queries shows
the "and then nothing" part. -/
theorem c7_into_iter_yields {α : Type} (x : α) (l : List α) (m : Nat) :
    MaybeManyIter.outputs listNext m
        ((MaybeMany.None : MaybeMany α (List α)).into_iter id) =
      List.replicate m Option.none ∧
    MaybeManyIter.outputs listNext (m + 1)
        ((MaybeMany.One x : MaybeMany α (List α)).into_iter id) =
      Option.some x :: List.replicate m Option.none ∧
    MaybeManyIter.outputs listNext (l.length + m)
        ((MaybeMany.Many l : MaybeMany α (List α)).into_iter id) =
      l.map Option.some ++ List.replicate m Option.none := by
  refine ⟨?_, ?_, ?_⟩
  · exact outputs_of_fixed listNext MaybeManyIter.None rfl m
  · rw [mmOutputs_succ]
    have h1 : MaybeManyIter.next listNext
        ((MaybeMany.One x : MaybeMany α (List α)).into_iter id) =
        (Option.some x, MaybeManyIter.One Option.none) := rfl
    rw [h1]
    show Option.some x ::
        MaybeManyIter.outputs listNext m (MaybeManyIter.One Option.none) = _
    rw [outputs_of_fixed listNext (MaybeManyIter.One Option.none) rfl m]
  · exact outputs_many_list l m

/-- Claim C3, counterexample: the claim says no public operation ever maps a
value in the `Many` state to the `One` or `None` state — but `map_none`
(src/maybe.rs lines 38-47) is public and maps `Many(std::iter::Empty)` (on
the specialization where it is defined) to the `None` state. -/
theorem c3_counterexample :
    (MaybeMany.Many EmptyIter.mk : MaybeMany Nat EmptyIter).is_many = true ∧
    ((MaybeMany.Many EmptyIter.mk : MaybeMany Nat EmptyIter).map_none :
      MaybeMany Nat (List Nat)).is_none = true :=
  ⟨rfl, rfl⟩

/-- Claim C3 (amended): no operation ever maps a `Many` value to the `One`
state, and every generic public operation keeps a `Many` value in the `Many`
state (`map_into_many`, `map_many`, `into_many`, `chain`, `boxed`, and the
value returned by `take`); the only public operations that map a `Many`
value to the `None` state are `map_none` and `map_single_into_many`, which
exist only on the specialization whose collection type is the canonical
empty collection `std::iter::Empty` (so the demoted `Many` holds zero
elements).  No operation automatically promotes a `None` value: every
mapping operation maps `None` to `None` (the wrapping operations
`into_many` / `chain` / `boxed` construct a `Many` explicitly and uniformly
for every input state, not as a promotion specific to `None`). -/
theorem c3_many_never_demoted_amended {α β γ δ : Type} (c : γ) (e : EmptyIter)
    (f : α → δ) (conv : γ → δ) (g : γ → δ) (lc other : List α) :
    (MaybeMany.map_into_many (MaybeMany.Many c) f conv =
      (MaybeMany.Many (conv c) : MaybeMany β δ)) ∧
    (MaybeMany.map_many (MaybeMany.Many c : MaybeMany α γ) g = MaybeMany.Many (g c)) ∧
    (MaybeMany.into_many (MaybeMany.Many c : MaybeMany α γ) =
      MaybeMany.Many (MaybeMany.Many c)) ∧
    ((MaybeMany.chain (MaybeMany.Many lc) other).is_many = true) ∧
    ((MaybeMany.boxed (MaybeMany.Many lc)).is_many = true) ∧
    ((MaybeMany.take (MaybeMany.Many c : MaybeMany α γ)).fst = MaybeMany.Many c) ∧
    (MaybeMany.map_none (MaybeMany.Many e : MaybeMany α EmptyIter) =
      (MaybeMany.None : MaybeMany α δ)) ∧
    (MaybeMany.map_single_into_many (MaybeMany.Many e : MaybeMany α EmptyIter) f =
      (MaybeMany.None : MaybeMany β δ)) ∧
    (MaybeMany.map_none (MaybeMany.None : MaybeMany α EmptyIter) =
      (MaybeMany.None : MaybeMany α δ)) ∧
    (MaybeMany.map_single_into_many (MaybeMany.None : MaybeMany α EmptyIter) f =
      (MaybeMany.None : MaybeMany β δ)) ∧
    (MaybeMany.map_into_many (MaybeMany.None : MaybeMany α γ) f conv =
      (MaybeMany.None : MaybeMany β δ)) ∧
    (MaybeMany.map_many (MaybeMany.None : MaybeMany α γ) g =
      (MaybeMany.None : MaybeMany α δ)) ∧
    ((MaybeMany.take (MaybeMany.None : MaybeMany α γ)).fst = MaybeMany.None) :=
  ⟨rfl, rfl, rfl, rfl, rfl, rfl, rfl, rfl, rfl, rfl, rfl, rfl, rfl⟩

theorem chain_outputs_second {α : Type} :
    ∀ (l : List α) (m : Nat),
      MaybeManyIter.outputs chainStep (l.length + m)
        (MaybeManyIter.Many (Option.some ⟨Option.none, Option.some l⟩)) =
      l.map Option.some ++ List.replicate m Option.none
  | [], m => by
    simp only [List.length_nil, Nat.zero_add, List.map_nil, List.nil_append]
    cases m with
    | zero => rfl
    | succ m =>
      rw [mmOutputs_succ]
      have h1 : MaybeManyIter.next chainStep
          (MaybeManyIter.Many (Option.some (⟨Option.none, Option.some []⟩ :
            Chain (MaybeManyIter α (List α)) (List α)))) =
          (Option.none, MaybeManyIter.Many Option.none) := rfl
      rw [h1]
      show Option.none ::
          MaybeManyIter.outputs chainStep m (MaybeManyIter.Many Option.none) = _
      rw [outputs_of_fixed chainStep (MaybeManyIter.Many Option.none) rfl m]
      rfl
  | y :: ys, m => by
    have harith : (y :: ys).length + m = (ys.length + m) + 1 := by
      simp only [List.length_cons]
      omega
    rw [harith, mmOutputs_succ]
    have h1 : MaybeManyIter.next chainStep
        (MaybeManyIter.Many (Option.some (⟨Option.none, Option.some (y :: ys)⟩ :
          Chain (MaybeManyIter α (List α)) (List α)))) =
        (Option.some y, MaybeManyIter.Many
          (Option.some ⟨Option.none, Option.some ys⟩)) := rfl
    rw [h1]
    show Option.some y ::
        MaybeManyIter.outputs chainStep (ys.length + m)
          (MaybeManyIter.Many (Option.some ⟨Option.none, Option.some ys⟩)) = _
    rw [chain_outputs_second ys m]
    simp

theorem chain_outputs_first_dead {α : Type} (d : MaybeManyIter α (List α))
    (hd : (MaybeManyIter.next listNext d).fst = Option.none) :
    ∀ (l : List α) (m : Nat),
      MaybeManyIter.outputs chainStep (l.length + m)
        (MaybeManyIter.Many (Option.some ⟨Option.some d, Option.some l⟩)) =
      l.map Option.some ++ List.replicate m Option.none := by
  intro l m
  rcases hn : MaybeManyIter.next listNext d with ⟨r, d'⟩
  rw [hn] at hd
  have hr : r = Option.none := hd
  subst hr
  cases l with
  | nil =>
    have hc : chainStep (⟨Option.some d, Option.some []⟩ :
        Chain (MaybeManyIter α (List α)) (List α)) =
        (Option.none, ⟨Option.none, Option.none⟩) := by
      simp only [chainStep, Chain.next, hn, listNext]
    have h1 : MaybeManyIter.next chainStep
        (MaybeManyIter.Many (Option.some (⟨Option.some d, Option.some []⟩ :
          Chain (MaybeManyIter α (List α)) (List α)))) =
        (Option.none, MaybeManyIter.Many Option.none) := by
      simp only [MaybeManyIter.next, hc]
    simp only [List.length_nil, Nat.zero_add, List.map_nil, List.nil_append]
    cases m with
    | zero => rfl
    | succ m =>
      rw [mmOutputs_succ, h1]
      show Option.none ::
          MaybeManyIter.outputs chainStep m (MaybeManyIter.Many Option.none) = _
      rw [outputs_of_fixed chainStep (MaybeManyIter.Many Option.none) rfl m]
      rfl
  | cons y ys =>
    have hc : chainStep (⟨Option.some d, Option.some (y :: ys)⟩ :
        Chain (MaybeManyIter α (List α)) (List α)) =
        (Option.some y, ⟨Option.none, Option.some ys⟩) := by
      simp only [chainStep, Chain.next, hn, listNext]
    have h1 : MaybeManyIter.next chainStep
        (MaybeManyIter.Many (Option.some (⟨Option.some d, Option.some (y :: ys)⟩ :
          Chain (MaybeManyIter α (List α)) (List α)))) =
        (Option.some y, MaybeManyIter.Many
          (Option.some ⟨Option.none, Option.some ys⟩)) := by
      simp only [MaybeManyIter.next, hc]
    have harith : (y :: ys).length + m = (ys.length + m) + 1 := by
      simp only [List.length_cons]
      omega
    rw [harith, mmOutputs_succ, h1]
    show Option.some y ::
        MaybeManyIter.outputs chainStep (ys.length + m)
          (MaybeManyIter.Many (Option.some ⟨Option.none, Option.some ys⟩)) = _
    rw [chain_outputs_second ys m]
    simp

theorem chain_outputs_first_many {α : Type} :
    ∀ (l other : List α) (m : Nat),
      MaybeManyIter.outputs chainStep (l.length + (other.length + m))
        (MaybeManyIter.Many (Option.some
          ⟨Option.some (MaybeManyIter.Many (Option.some l)), Option.some other⟩)) =
      l.map Option.some ++ (other.map Option.some ++ List.replicate m Option.none)
  | [], other, m => by
    simp only [List.length_nil, Nat.zero_add, List.map_nil, List.nil_append]
    exact chain_outputs_first_dead (MaybeManyIter.Many (Option.some [])) rfl other m
  | x :: xs, other, m => by
    have harith : (x :: xs).length + (other.length + m) =
        (xs.length + (other.length + m)) + 1 := by
      simp only [List.length_cons]
      omega
    rw [harith, mmOutputs_succ]
    have h1 : MaybeManyIter.next chainStep
        (MaybeManyIter.Many (Option.some
          (⟨Option.some (MaybeManyIter.Many (Option.some (x :: xs))), Option.some other⟩ :
            Chain (MaybeManyIter α (List α)) (List α)))) =
        (Option.some x, MaybeManyIter.Many (Option.some
          ⟨Option.some (MaybeManyIter.Many (Option.some xs)), Option.some other⟩)) := rfl
    rw [h1]
    show Option.some x ::
        MaybeManyIter.outputs chainStep (xs.length + (other.length + m))
          (MaybeManyIter.Many (Option.some
            ⟨Option.some (MaybeManyIter.Many (Option.some xs)), Option.some other⟩)) = _
    rw [chain_outputs_first_many xs other m]
    simp

/-- Claim C8: for every `MaybeMany` value over a list collection, in any of
its three states, `chain(other)` returns a value in the `Many` state whose
iteration yields exactly the receiver's elements in order followed by
`other`'s elements in order (and `None` forever after, shown by the extra
fuel `m`); in particular the spec's concrete example
`Single("hello").map_single_into_many(|x| [x, " "]).chain(["world", "!"])`
iterates to exactly `["hello", " ", "world", "!"]`. -/
theorem c8_chain_concatenates {α : Type} (self : MaybeMany α (List α))
    (other : List α) (m : Nat) :
    (MaybeMany.chain self other).is_many = true ∧
    MaybeManyIter.outputs chainStep (self.elems.length + other.length + m)
        ((MaybeMany.chain self other).into_iter id) =
      (self.elems ++ other).map Option.some ++ List.replicate m Option.none ∧
    MaybeManyIter.outputs chainStep 5
        ((((MaybeMany.one "hello").map_single_into_many
            (fun x => [x, " "]) : MaybeMany String (List String)).chain
          ["world", "!"]).into_iter id) =
      [Option.some "hello", Option.some " ", Option.some "world", Option.some "!",
        Option.none] := by
  refine ⟨rfl, ?_, by rfl⟩
  cases self with
  | None =>
    simp only [MaybeMany.elems, List.length_nil, Nat.zero_add, List.nil_append]
    simp only [MaybeMany.chain, MaybeMany.into_iter, id]
    exact chain_outputs_first_dead MaybeManyIter.None rfl other m
  | One x =>
    have harith : (MaybeMany.elems (MaybeMany.One x)).length + other.length + m =
        (other.length + m) + 1 := by
      simp only [MaybeMany.elems, List.length_singleton]
      omega
    rw [harith]
    simp only [MaybeMany.chain, MaybeMany.into_iter, id]
    rw [mmOutputs_succ]
    have h1 : MaybeManyIter.next chainStep
        (MaybeManyIter.Many (Option.some
          (⟨Option.some (MaybeManyIter.One (Option.some x)), Option.some other⟩ :
            Chain (MaybeManyIter α (List α)) (List α)))) =
        (Option.some x, MaybeManyIter.Many (Option.some
          ⟨Option.some (MaybeManyIter.One Option.none), Option.some other⟩)) := rfl
    rw [h1]
    show Option.some x ::
        MaybeManyIter.outputs chainStep (other.length + m)
          (MaybeManyIter.Many (Option.some
            ⟨Option.some (MaybeManyIter.One Option.none), Option.some other⟩)) = _
    rw [chain_outputs_first_dead (MaybeManyIter.One Option.none) rfl other m]
    simp [MaybeMany.elems]
  | Many l =>
    have harith : (MaybeMany.elems (MaybeMany.Many l)).length + other.length + m =
        l.length + (other.length + m) := by
      simp only [MaybeMany.elems]
      omega
    rw [harith]
    simp only [MaybeMany.chain, MaybeMany.into_iter, id]
    rw [chain_outputs_first_many l other m]
    simp [MaybeMany.elems]
